import Mathlib

/-!
# Colour-space conversion of `DlColor`

A shallow embedding of `engine/src/flutter/display_list/dl_color.cc`: the sRGB
transfer functions, the Display P3 to linear sRGB matrix, `p3ToExtendedSrgb`
and `DlColor::withColorSpace`; and of the extension lookup `HasExtension` with
its caller `CreateSwangleDisplay` of `engine/src/flutter/testing/test_swangle_utils.cc`.

Conventions of the embedding:

* the values of the C++ scalar types `float` (`DlScalar`) and `double` are
  elements of one linearly ordered field `α`; arithmetic on `double` is exact
  and `std::pow` is the binary power `x ^ y` of a `Pow α α` instance (over `ℝ`
  this is the real power function);
* the widening `static_cast<double>` of a `float` is exact, the narrowing
  `static_cast<float>` of a `double` rounds to the nearest `float` as IEEE 754
  binary32 does (24 significant bits, ties to even, subnormals below
  `2 ^ (-126)`); infinities and NaN are not values of `α`, so a result beyond
  `FLT_MAX`, which the hardware turns into an infinity, is outside the
  embedding;
* `FML_CHECK(false) << "not implemented"` aborts the process; it is the error
  result `Except.error "not implemented"`, and the unreachable `return *this`
  that follows it in the source has no counterpart;
* a decimal literal of the source is the rational number it denotes.
-/

namespace flutter

/-- Modelled from the spec: the closed set of colour-space tags declared in
`dl_color.h` (`Standard`, `Extended`, `Wide`), under the names the source uses. -/
inductive DlColorSpace where
  | kSRGB
  | kExtendedSRGB
  | kDisplayP3
  deriving DecidableEq, Repr

/-- Modelled from the spec: the colour value of `dl_color.h`, four channels
alpha, red, green, blue and a colour-space tag, under the member names the
source uses. -/
structure DlColor (α : Type) where
  alpha_ : α
  red_ : α
  green_ : α
  blue_ : α
  color_space_ : DlColorSpace

namespace DlColor

variable {α : Type}

/-- Modelled from the spec: the channel accessor `getAlphaF` of `dl_color.h`. -/
def getAlphaF (c : DlColor α) : α := c.alpha_

/-- Modelled from the spec: the channel accessor `getRedF` of `dl_color.h`. -/
def getRedF (c : DlColor α) : α := c.red_

/-- Modelled from the spec: the channel accessor `getGreenF` of `dl_color.h`. -/
def getGreenF (c : DlColor α) : α := c.green_

/-- Modelled from the spec: the channel accessor `getBlueF` of `dl_color.h`. -/
def getBlueF (c : DlColor α) : α := c.blue_

end DlColor

section TransferFunctions

variable (α : Type) [LinearOrderedField α]

/-- The constant `kSrgbGamma`. -/
def kSrgbGamma : α := 2.4

/-- The constant `kSrgbLinearThreshold`. -/
def kSrgbLinearThreshold : α := 0.04045

/-- The constant `kSrgbLinearSlope`. -/
def kSrgbLinearSlope : α := 12.92

/-- The constant `kSrgbEncodedOffset`. -/
def kSrgbEncodedOffset : α := 0.055

/-- The constant `kSrgbEncodedDivisor`. -/
def kSrgbEncodedDivisor : α := 1.055

/-- The constant `kSrgbLinearToEncodedThreshold`. -/
def kSrgbLinearToEncodedThreshold : α := 0.0031308

/-- The array `kP3ToSrgbLinear[9]`, the Display P3 to linear sRGB matrix stored
row after row. -/
def kP3ToSrgbLinear : Fin 9 → α
  | 0 => 1.2249401
  | 1 => -0.2249402
  | 2 => 0.0
  | 3 => -0.0420569
  | 4 => 1.0420571
  | 5 => 0.0
  | 6 => -0.0196376
  | 7 => -0.0786507
  | 8 => 1.0982884

end TransferFunctions

section Clamp

variable {α : Type} [LinearOrderedField α]

/-- The library function `std::clamp(v, lo, hi)`:
`(v < lo) ? lo : (hi < v) ? hi : v`. -/
def clamp (v lo hi : α) : α :=
  if v < lo then lo else if hi < v then hi else v

end Clamp

section Rounding

variable {α : Type} [LinearOrderedField α] [FloorRing α]

/-- Rounding to the nearest integer, a tie going to the even neighbour. -/
def roundHalfEven (q : α) : ℤ :=
  if q - ⌊q⌋ < 1 / 2 then ⌊q⌋
  else if 1 / 2 < q - ⌊q⌋ then ⌊q⌋ + 1
  else if ⌊q⌋ % 2 = 0 then ⌊q⌋
  else ⌊q⌋ + 1

/-- The exponent of the spacing of `float` around `v`: 24 significant bits in
the binade of `v`, and the subnormal spacing `2 ^ (-149)` below `2 ^ (-126)`. -/
def floatUlpExponent (v : α) : ℤ :=
  max (Int.log 2 |v|) (-126) - 23

/-- The conversion `static_cast<float>` of a `double`: the multiple of the
`float` spacing around `v` that is nearest to `v`, ties to even. -/
def static_cast_float (v : α) : α :=
  (roundHalfEven (v / 2 ^ floatUlpExponent v) : α) * 2 ^ floatUlpExponent v

/-- The conversion `static_cast<double>` of a `float`: every `float` is a
`double`, the value is unchanged. -/
def static_cast_double (v : α) : α := v

end Rounding

namespace testing

/-! ## Extension lookup of `testing/test_swangle_utils.cc`

A C string is the list of its characters before the terminating NUL; a null
pointer is `none`. -/

/-- The library function `strstr(haystack, needle)`: the part of `haystack`
starting at the first occurrence of `needle`, or `none` (the null pointer) when
`needle` does not occur. -/
def strstr : List Char → List Char → Option (List Char)
  | [], needle => if needle.isPrefixOf [] then some [] else none
  | c :: rest, needle =>
    if needle.isPrefixOf (c :: rest) then some (c :: rest) else strstr rest needle

/-- The read `r[i]` of a C string: the character at offset `i`, the terminating
NUL at the end of the string. -/
def charAt (r : List Char) (i : Nat) : Char :=
  r.getD i (Char.ofNat 0)

/-- The function `HasExtension`: the first occurrence of `name` in `extensions`
is found with `strstr`, and the character right after it must be a space or the
terminating NUL. -/
def HasExtension (extensions name : List Char) : Bool :=
  match strstr extensions name with
  | none => false
  | some r =>
    let len := name.length
    charAt r len == ' ' || charAt r len == Char.ofNat 0

/-- The display handle type `EGLDisplay` of the EGL library, with its
distinguished value `EGL_NO_DISPLAY`. -/
inductive EGLDisplay where
  | EGL_NO_DISPLAY
  | display (handle : Nat)
  deriving DecidableEq, Repr

/-- The function `CreateSwangleDisplay`. The two EGL calls are parameters:
`extensions` is the result of `eglQueryString(EGL_NO_DISPLAY, EGL_EXTENSIONS)`,
and `egl_get_platform_display_EXT` is `none` when `eglGetProcAddress` returns
null and otherwise the display the returned function yields for the fixed
`display_config`. -/
def CreateSwangleDisplay (extensions : Option (List Char))
    (egl_get_platform_display_EXT : Option EGLDisplay) : EGLDisplay :=
  match extensions with
  | none => EGLDisplay.EGL_NO_DISPLAY
  | some extensions =>
    if !HasExtension extensions "EGL_EXT_platform_base".toList then
      EGLDisplay.EGL_NO_DISPLAY
    else if !HasExtension extensions "EGL_ANGLE_platform_angle_vulkan".toList then
      EGLDisplay.EGL_NO_DISPLAY
    else if !HasExtension extensions
        "EGL_ANGLE_platform_angle_device_type_swiftshader".toList then
      EGLDisplay.EGL_NO_DISPLAY
    else
      match egl_get_platform_display_EXT with
      | none => EGLDisplay.EGL_NO_DISPLAY
      | some display => display

/-- The complete space-separated entries of an extension string, in the words
of the claim: the maximal runs of characters between spaces. -/
def extensionEntries : List Char → List (List Char)
  | [] => [[]]
  | c :: rest =>
    if c = ' ' then [] :: extensionEntries rest
    else
      match extensionEntries rest with
      | [] => [[c]]
      | entry :: entries => (c :: entry) :: entries

end testing

section Conversion

variable {α : Type} [LinearOrderedField α] [Pow α α]

/-- The function `srgbEOTF`: gamma decode, encoded value to linear light. -/
def srgbEOTF (v : α) : α :=
  if v ≤ kSrgbLinearThreshold α then
    v / kSrgbLinearSlope α
  else
    ((v + kSrgbEncodedOffset α) / kSrgbEncodedDivisor α) ^ kSrgbGamma α

/-- The function `srgbOETF`: gamma encode, linear light to encoded value. -/
def srgbOETF (v : α) : α :=
  if v ≤ kSrgbLinearToEncodedThreshold α then
    v * kSrgbLinearSlope α
  else
    kSrgbEncodedDivisor α * v ^ (1.0 / kSrgbGamma α) - kSrgbEncodedOffset α

/-- The function `srgbEOTFExtended`: `srgbEOTF` continued to negative values. -/
def srgbEOTFExtended (v : α) : α :=
  if v < 0.0 then -srgbEOTF (-v) else srgbEOTF v

/-- The function `srgbOETFExtended`: `srgbOETF` continued to negative values. -/
def srgbOETFExtended (v : α) : α :=
  if v < 0.0 then -srgbOETF (-v) else srgbOETF v

/-- The function `p3ToExtendedSrgb`: P3 gamma decode, the 3x3 matrix in linear
space, sRGB gamma encode, each result narrowed to `float`; alpha is copied and
the result is tagged `kExtendedSRGB`. -/
def p3ToExtendedSrgb [FloorRing α] (color : DlColor α) : DlColor α :=
  let r_lin := srgbEOTFExtended (static_cast_double color.getRedF)
  let g_lin := srgbEOTFExtended (static_cast_double color.getGreenF)
  let b_lin := srgbEOTFExtended (static_cast_double color.getBlueF)
  let r_srgb_lin := kP3ToSrgbLinear α 0 * r_lin + kP3ToSrgbLinear α 1 * g_lin +
    kP3ToSrgbLinear α 2 * b_lin
  let g_srgb_lin := kP3ToSrgbLinear α 3 * r_lin + kP3ToSrgbLinear α 4 * g_lin +
    kP3ToSrgbLinear α 5 * b_lin
  let b_srgb_lin := kP3ToSrgbLinear α 6 * r_lin + kP3ToSrgbLinear α 7 * g_lin +
    kP3ToSrgbLinear α 8 * b_lin
  let r_out := srgbOETFExtended r_srgb_lin
  let g_out := srgbOETFExtended g_srgb_lin
  let b_out := srgbOETFExtended b_srgb_lin
  ⟨color.getAlphaF, static_cast_float r_out, static_cast_float g_out,
    static_cast_float b_out, DlColorSpace.kExtendedSRGB⟩

/-- The method `DlColor::withColorSpace`: the nested switch over the source tag
`color_space_` and the requested tag `color_space`. The one recursive call is
made on the result of `p3ToExtendedSrgb`, which is never tagged `kDisplayP3`. -/
def DlColor.withColorSpace [FloorRing α] (c : DlColor α) (color_space : DlColorSpace) :
    Except String (DlColor α) :=
  match h : c.color_space_ with
  | DlColorSpace.kSRGB =>
    match color_space with
    | DlColorSpace.kSRGB => Except.ok c
    | DlColorSpace.kExtendedSRGB =>
      Except.ok ⟨c.alpha_, c.red_, c.green_, c.blue_, DlColorSpace.kExtendedSRGB⟩
    | DlColorSpace.kDisplayP3 => Except.error "not implemented"
  | DlColorSpace.kExtendedSRGB =>
    match color_space with
    | DlColorSpace.kSRGB =>
      Except.ok ⟨c.alpha_, clamp c.red_ 0.0 1.0, clamp c.green_ 0.0 1.0,
        clamp c.blue_ 0.0 1.0, DlColorSpace.kSRGB⟩
    | DlColorSpace.kExtendedSRGB => Except.ok c
    | DlColorSpace.kDisplayP3 => Except.error "not implemented"
  | DlColorSpace.kDisplayP3 =>
    match color_space with
    | DlColorSpace.kSRGB => (p3ToExtendedSrgb c).withColorSpace DlColorSpace.kSRGB
    | DlColorSpace.kExtendedSRGB => Except.ok (p3ToExtendedSrgb c)
    | DlColorSpace.kDisplayP3 => Except.ok c
termination_by (if c.color_space_ = DlColorSpace.kDisplayP3 then 1 else 0 : Nat)
decreasing_by
  simp [p3ToExtendedSrgb, h]

/-- An evaluation performed while a transfer function runs. -/
inductive Call (α : Type) where
  | srgbEOTF (v : α)
  | srgbOETF (v : α)
  | pow (base exponent : α)

/-- The safety condition on an evaluation: a core transfer function receives a
non-negative argument, `std::pow` receives a strictly positive base. -/
def Call.safe : Call α → Prop
  | Call.srgbEOTF v => 0 ≤ v
  | Call.srgbOETF v => 0 ≤ v
  | Call.pow base _ => 0 < base

/-- The function `srgbEOTF` with its evaluations. -/
def srgbEOTFTrace (v : α) : α × List (Call α) :=
  if v ≤ kSrgbLinearThreshold α then
    (v / kSrgbLinearSlope α, [Call.srgbEOTF v])
  else
    (((v + kSrgbEncodedOffset α) / kSrgbEncodedDivisor α) ^ kSrgbGamma α,
      [Call.srgbEOTF v,
        Call.pow ((v + kSrgbEncodedOffset α) / kSrgbEncodedDivisor α) (kSrgbGamma α)])

/-- The function `srgbOETF` with its evaluations. -/
def srgbOETFTrace (v : α) : α × List (Call α) :=
  if v ≤ kSrgbLinearToEncodedThreshold α then
    (v * kSrgbLinearSlope α, [Call.srgbOETF v])
  else
    (kSrgbEncodedDivisor α * v ^ (1.0 / kSrgbGamma α) - kSrgbEncodedOffset α,
      [Call.srgbOETF v, Call.pow v (1.0 / kSrgbGamma α)])

/-- The function `srgbEOTFExtended` with its evaluations. -/
def srgbEOTFExtendedTrace (v : α) : α × List (Call α) :=
  if v < 0.0 then (-(srgbEOTFTrace (-v)).1, (srgbEOTFTrace (-v)).2) else srgbEOTFTrace v

/-- The function `srgbOETFExtended` with its evaluations. -/
def srgbOETFExtendedTrace (v : α) : α × List (Call α) :=
  if v < 0.0 then (-(srgbOETFTrace (-v)).1, (srgbOETFTrace (-v)).2) else srgbOETFTrace v

/-- The function `p3ToExtendedSrgb` with its evaluations, in the order of the
source: the three decodes, then the three encodes. -/
def p3ToExtendedSrgbTrace [FloorRing α] (color : DlColor α) :
    DlColor α × List (Call α) :=
  let r_lin := srgbEOTFExtendedTrace (static_cast_double color.getRedF)
  let g_lin := srgbEOTFExtendedTrace (static_cast_double color.getGreenF)
  let b_lin := srgbEOTFExtendedTrace (static_cast_double color.getBlueF)
  let r_srgb_lin := kP3ToSrgbLinear α 0 * r_lin.1 + kP3ToSrgbLinear α 1 * g_lin.1 +
    kP3ToSrgbLinear α 2 * b_lin.1
  let g_srgb_lin := kP3ToSrgbLinear α 3 * r_lin.1 + kP3ToSrgbLinear α 4 * g_lin.1 +
    kP3ToSrgbLinear α 5 * b_lin.1
  let b_srgb_lin := kP3ToSrgbLinear α 6 * r_lin.1 + kP3ToSrgbLinear α 7 * g_lin.1 +
    kP3ToSrgbLinear α 8 * b_lin.1
  let r_out := srgbOETFExtendedTrace r_srgb_lin
  let g_out := srgbOETFExtendedTrace g_srgb_lin
  let b_out := srgbOETFExtendedTrace b_srgb_lin
  (⟨color.getAlphaF, static_cast_float r_out.1, static_cast_float g_out.1,
      static_cast_float b_out.1, DlColorSpace.kExtendedSRGB⟩,
    r_lin.2 ++ g_lin.2 ++ b_lin.2 ++ r_out.2 ++ g_out.2 ++ b_out.2)

/-- The method `DlColor::withColorSpace` with a bound on the number of nested
activations: `fuel` counts the activations still allowed, the outermost call
included, and `none` means the bound was reached before a result. -/
def DlColor.withColorSpaceFuel [FloorRing α] :
    Nat → DlColor α → DlColorSpace → Option (Except String (DlColor α))
  | 0, _, _ => none
  | fuel + 1, c, color_space =>
    match c.color_space_ with
    | DlColorSpace.kSRGB =>
      match color_space with
      | DlColorSpace.kSRGB => some (Except.ok c)
      | DlColorSpace.kExtendedSRGB =>
        some (Except.ok ⟨c.alpha_, c.red_, c.green_, c.blue_, DlColorSpace.kExtendedSRGB⟩)
      | DlColorSpace.kDisplayP3 => some (Except.error "not implemented")
    | DlColorSpace.kExtendedSRGB =>
      match color_space with
      | DlColorSpace.kSRGB =>
        some (Except.ok ⟨c.alpha_, clamp c.red_ 0.0 1.0, clamp c.green_ 0.0 1.0,
          clamp c.blue_ 0.0 1.0, DlColorSpace.kSRGB⟩)
      | DlColorSpace.kExtendedSRGB => some (Except.ok c)
      | DlColorSpace.kDisplayP3 => some (Except.error "not implemented")
    | DlColorSpace.kDisplayP3 =>
      match color_space with
      | DlColorSpace.kSRGB =>
        DlColor.withColorSpaceFuel fuel (p3ToExtendedSrgb c) DlColorSpace.kSRGB
      | DlColorSpace.kExtendedSRGB => some (Except.ok (p3ToExtendedSrgb c))
      | DlColorSpace.kDisplayP3 => some (Except.ok c)

end Conversion

/-! ## Facts about the narrowing conversion -/

section RoundingFacts

variable {α : Type} [LinearOrderedField α] [FloorRing α]

/-- A value within one half of the integer `m` rounds to `m`. -/
theorem roundHalfEven_eq (q : α) (m : ℤ) (h1 : (m : α) - 1 / 2 < q)
    (h2 : q < (m : α) + 1 / 2) : roundHalfEven q = m := by
  unfold roundHalfEven
  by_cases hq : (m : α) ≤ q
  · have hfl : ⌊q⌋ = m := by
      rw [Int.floor_eq_iff]
      constructor
      · exact hq
      · linarith
    rw [hfl, if_pos (by linarith)]
  · have hq' : q < m := not_le.mp hq
    have hfl : ⌊q⌋ = m - 1 := by
      rw [Int.floor_eq_iff]
      push_cast
      constructor <;> linarith
    rw [hfl]
    push_cast
    rw [if_neg (by linarith), if_pos (by linarith)]
    ring

/-- Zero is narrowed to zero. -/
theorem static_cast_float_zero : static_cast_float (0 : α) = 0 := by
  unfold static_cast_float
  have : roundHalfEven ((0 : α) / 2 ^ floatUlpExponent (0 : α)) = 0 := by
    apply roundHalfEven_eq <;> norm_num
  rw [this]
  simp

end RoundingFacts

section ConversionFacts

variable {α : Type} [LinearOrderedField α] [Pow α α]

/-! ## Basic facts about the embedding -/

omit [Pow α α] in
theorem zero_literal : (0.0 : α) = 0 := by norm_num

omit [Pow α α] in
theorem one_literal : (1.0 : α) = 1 := by norm_num

omit [Pow α α] in
/-- On `0 ≤ 1` the source's `std::clamp(v, 0, 1)` is `min (max v 0) 1`. -/
theorem clamp_zero_one (v : α) : clamp v 0.0 1.0 = min (max v 0) 1 := by
  rw [zero_literal, one_literal]
  unfold clamp
  by_cases h0 : v < 0
  · rw [if_pos h0, max_eq_right h0.le, min_eq_left zero_le_one]
  · rw [if_neg h0, max_eq_left (not_lt.mp h0)]
    by_cases h1 : 1 < v
    · rw [if_pos h1, min_eq_right h1.le]
    · rw [if_neg h1, min_eq_left (not_lt.mp h1)]

omit [Pow α α] in
/-- A value already in `[0, 1]` is left alone by the clamp. -/
theorem clamp_of_mem (v : α) (h0 : 0 ≤ v) (h1 : v ≤ 1) : clamp v 0.0 1.0 = v := by
  rw [clamp_zero_one, max_eq_left h0, min_eq_left h1]

/-! ## The conversion graph -/

section Graph

variable [FloorRing α]

theorem p3ToExtendedSrgb_color_space (c : DlColor α) :
    (p3ToExtendedSrgb c).color_space_ = DlColorSpace.kExtendedSRGB := rfl

theorem p3ToExtendedSrgb_alpha (c : DlColor α) :
    (p3ToExtendedSrgb c).alpha_ = c.alpha_ := rfl

/-- C1 (alpha invariance): whenever `withColorSpace` returns a colour, for any
source tag, any destination and any channel values, the alpha of the returned
colour is the alpha of the input. -/
theorem withColorSpace_alpha (c c' : DlColor α) (dst : DlColorSpace)
    (h : c.withColorSpace dst = Except.ok c') : c'.alpha_ = c.alpha_ := by
  obtain ⟨a, r, g, b, s⟩ := c
  cases s <;> cases dst <;>
    simp [DlColor.withColorSpace, p3ToExtendedSrgb_color_space,
      p3ToExtendedSrgb_alpha] at h <;>
    subst h <;> simp [p3ToExtendedSrgb_alpha]

/-- C2 (unsupported transitions): `withColorSpace` ends in the fatal
"not implemented" check exactly on the transitions from `kSRGB` or
`kExtendedSRGB` to `kDisplayP3`, and returns a colour exactly on the other
seven transitions, whatever the channel values. -/
theorem withColorSpace_error_iff (c : DlColor α) (dst : DlColorSpace) :
    (c.withColorSpace dst = Except.error "not implemented" ↔
        (c.color_space_ = DlColorSpace.kSRGB ∨
            c.color_space_ = DlColorSpace.kExtendedSRGB) ∧
          dst = DlColorSpace.kDisplayP3) ∧
      ((∃ c', c.withColorSpace dst = Except.ok c') ↔
        ¬ ((c.color_space_ = DlColorSpace.kSRGB ∨
            c.color_space_ = DlColorSpace.kExtendedSRGB) ∧
          dst = DlColorSpace.kDisplayP3)) := by
  obtain ⟨a, r, g, b, s⟩ := c
  cases s <;> cases dst <;>
    simp [DlColor.withColorSpace, p3ToExtendedSrgb_color_space]

/-- C4 (clamping): a `kExtendedSRGB` colour converts to the `kSRGB` colour with
the same alpha and each of red, green, blue replaced by `min (max x 0) 1`; the
channels `(-0.5, 0.5, 1.5)` become `(0.0, 0.5, 1.0)`. -/
theorem withColorSpace_extended_srgb (a r g b : α) :
    (DlColor.mk a r g b DlColorSpace.kExtendedSRGB).withColorSpace
        DlColorSpace.kSRGB =
      Except.ok ⟨a, min (max r 0) 1, min (max g 0) 1, min (max b 0) 1,
        DlColorSpace.kSRGB⟩ ∧
    (DlColor.mk a (-0.5) 0.5 1.5 DlColorSpace.kExtendedSRGB).withColorSpace
        DlColorSpace.kSRGB =
      Except.ok ⟨a, 0.0, 0.5, 1.0, DlColorSpace.kSRGB⟩ := by
  constructor
  · simp [DlColor.withColorSpace, clamp_zero_one]
  · norm_num [DlColor.withColorSpace, clamp]

/-- C5 (composability): for a `kDisplayP3` colour, converting to `kSRGB` gives
the same result as converting to `kExtendedSRGB` and converting that to
`kSRGB`, and this common result is a colour. -/
theorem withColorSpace_p3_srgb_compose (a r g b : α) :
    (DlColor.mk a r g b DlColorSpace.kDisplayP3).withColorSpace DlColorSpace.kSRGB =
      ((DlColor.mk a r g b DlColorSpace.kDisplayP3).withColorSpace
        DlColorSpace.kExtendedSRGB >>= fun e => e.withColorSpace DlColorSpace.kSRGB) ∧
    ∃ s, (DlColor.mk a r g b DlColorSpace.kDisplayP3).withColorSpace
      DlColorSpace.kSRGB = Except.ok s := by
  constructor
  · rw [DlColor.withColorSpace]
    conv_rhs => rw [DlColor.withColorSpace]
    rfl
  · rw [DlColor.withColorSpace]
    simp [DlColor.withColorSpace, p3ToExtendedSrgb_color_space]

/-- C6 (identity transitions and re-tagging): `kSRGB` to `kSRGB`,
`kExtendedSRGB` to `kExtendedSRGB`, `kDisplayP3` to `kDisplayP3` and `kSRGB` to
`kExtendedSRGB` return the input channels unchanged under the requested tag. -/
theorem withColorSpace_identity (a r g b : α) :
    (DlColor.mk a r g b DlColorSpace.kSRGB).withColorSpace DlColorSpace.kSRGB =
      Except.ok ⟨a, r, g, b, DlColorSpace.kSRGB⟩ ∧
    (DlColor.mk a r g b DlColorSpace.kExtendedSRGB).withColorSpace
        DlColorSpace.kExtendedSRGB =
      Except.ok ⟨a, r, g, b, DlColorSpace.kExtendedSRGB⟩ ∧
    (DlColor.mk a r g b DlColorSpace.kDisplayP3).withColorSpace
        DlColorSpace.kDisplayP3 =
      Except.ok ⟨a, r, g, b, DlColorSpace.kDisplayP3⟩ ∧
    (DlColor.mk a r g b DlColorSpace.kSRGB).withColorSpace
        DlColorSpace.kExtendedSRGB =
      Except.ok ⟨a, r, g, b, DlColorSpace.kExtendedSRGB⟩ := by
  refine ⟨?_, ?_, ?_, ?_⟩ <;> simp [DlColor.withColorSpace]

/-- C7 (Standard inside Extended): a `kSRGB` colour whose red, green and blue
lie in `[0, 1]` is returned unchanged by the conversion to `kExtendedSRGB`
followed by the conversion back to `kSRGB`. -/
theorem withColorSpace_srgb_roundtrip (a r g b : α)
    (hr : 0 ≤ r ∧ r ≤ 1) (hg : 0 ≤ g ∧ g ≤ 1) (hb : 0 ≤ b ∧ b ≤ 1) :
    ((DlColor.mk a r g b DlColorSpace.kSRGB).withColorSpace
        DlColorSpace.kExtendedSRGB >>= fun e => e.withColorSpace DlColorSpace.kSRGB) =
      Except.ok ⟨a, r, g, b, DlColorSpace.kSRGB⟩ := by
  rw [DlColor.withColorSpace]
  show DlColor.withColorSpace _ _ = _
  rw [DlColor.withColorSpace]
  simp [clamp_of_mem, hr.1, hr.2, hg.1, hg.2, hb.1, hb.2]

end Graph

/-! ## The transfer functions -/

/-- C8 (extended symmetry): `srgbEOTFExtended` and `srgbOETFExtended` are odd
functions, at every value including zero. -/
theorem extended_odd (v : α) :
    srgbEOTFExtended (-v) = -srgbEOTFExtended v ∧
      srgbOETFExtended (-v) = -srgbOETFExtended v := by
  have h0 : (0.0 : α) = 0 := zero_literal
  unfold srgbEOTFExtended srgbOETFExtended
  rw [h0]
  rcases lt_trichotomy v 0 with h | h | h
  · have h' : ¬ (-v < 0) := by simpa using h.le
    simp [h, h']
  · subst h
    simp [srgbEOTF, srgbOETF, kSrgbLinearThreshold, kSrgbLinearToEncodedThreshold]
    constructor <;> norm_num
  · have h' : ¬ (v < 0) := not_lt.mpr h.le
    have h'' : -v < 0 := by simpa using h
    simp [h', h'']

end ConversionFacts

section RealPower

/-- Over the reals, raising to `kSrgbGamma` and then to `1.0 / kSrgbGamma` is the
identity on non-negative numbers. -/
theorem rpow_gamma_inv (x : ℝ) (hx : 0 ≤ x) :
    (x ^ kSrgbGamma ℝ) ^ (1.0 / kSrgbGamma ℝ) = x := by
  rw [← Real.rpow_mul hx]
  have : kSrgbGamma ℝ * (1.0 / kSrgbGamma ℝ) = 1 := by norm_num [kSrgbGamma]
  rw [this, Real.rpow_one]

/-- Over the reals, raising to `1.0 / kSrgbGamma` and then to `kSrgbGamma` is the
identity on non-negative numbers. -/
theorem rpow_inv_gamma (x : ℝ) (hx : 0 ≤ x) :
    (x ^ (1.0 / kSrgbGamma ℝ)) ^ kSrgbGamma ℝ = x := by
  rw [← Real.rpow_mul hx]
  have : (1.0 / kSrgbGamma ℝ) * kSrgbGamma ℝ = 1 := by norm_num [kSrgbGamma]
  rw [this, Real.rpow_one]

/-- The twelfth power of `x ^ (1.0 / kSrgbGamma)` is the fifth power of `x`. -/
theorem rpow_inv_gamma_pow (x : ℝ) (hx : 0 ≤ x) :
    (x ^ (1.0 / kSrgbGamma ℝ)) ^ (12 : ℕ) = x ^ (5 : ℕ) := by
  rw [← Real.rpow_natCast, ← Real.rpow_mul hx, ← Real.rpow_natCast]
  congr 1
  norm_num [kSrgbGamma]

/-- The fifth power of `x ^ kSrgbGamma` is the twelfth power of `x`. -/
theorem rpow_gamma_pow (x : ℝ) (hx : 0 ≤ x) :
    (x ^ kSrgbGamma ℝ) ^ (5 : ℕ) = x ^ (12 : ℕ) := by
  rw [← Real.rpow_natCast, ← Real.rpow_mul hx, ← Real.rpow_natCast]
  congr 1
  norm_num [kSrgbGamma]

/-- A lower bound on the encoding power just above the linear threshold. -/
theorem rpow_inv_gamma_lower (x : ℝ) (hx : 0.0031308 < x) :
    0.0904738 < x ^ (1.0 / kSrgbGamma ℝ) := by
  have hx0 : (0 : ℝ) ≤ x := by linarith
  have hy0 : 0 ≤ x ^ (1.0 / kSrgbGamma ℝ) := Real.rpow_nonneg hx0 _
  by_contra hlt
  have hle : x ^ (1.0 / kSrgbGamma ℝ) ≤ 0.0904738 := not_lt.mp hlt
  have h12 : (x ^ (1.0 / kSrgbGamma ℝ)) ^ (12 : ℕ) ≤ (0.0904738 : ℝ) ^ (12 : ℕ) :=
    pow_le_pow_left₀ hy0 hle 12
  rw [rpow_inv_gamma_pow x hx0] at h12
  have h5 : (0.0031308 : ℝ) ^ (5 : ℕ) < x ^ (5 : ℕ) :=
    pow_lt_pow_left₀ hx (by norm_num) (by norm_num)
  have hnum : (0.0904738 : ℝ) ^ (12 : ℕ) ≤ (0.0031308 : ℝ) ^ (5 : ℕ) := by norm_num
  linarith

/-- An upper bound on the encoding power at the top of the decoded linear
segment. -/
theorem rpow_inv_gamma_upper (x : ℝ) (hx0 : 0 ≤ x) (hx : x ≤ 0.04045 / 12.92) :
    x ^ (1.0 / kSrgbGamma ℝ) < 0.090474 := by
  have hy0 : 0 ≤ x ^ (1.0 / kSrgbGamma ℝ) := Real.rpow_nonneg hx0 _
  by_contra hlt
  have hle : (0.090474 : ℝ) ≤ x ^ (1.0 / kSrgbGamma ℝ) := not_lt.mp hlt
  have h12 : (0.090474 : ℝ) ^ (12 : ℕ) ≤ (x ^ (1.0 / kSrgbGamma ℝ)) ^ (12 : ℕ) :=
    pow_le_pow_left₀ (by norm_num) hle 12
  rw [rpow_inv_gamma_pow x hx0] at h12
  have h5 : x ^ (5 : ℕ) ≤ (0.04045 / 12.92 : ℝ) ^ (5 : ℕ) :=
    pow_le_pow_left₀ hx0 hx 5
  have hnum : (0.04045 / 12.92 : ℝ) ^ (5 : ℕ) < (0.090474 : ℝ) ^ (12 : ℕ) := by norm_num
  linarith

/-- Above the encoded threshold the decoding power exceeds the linear-domain
threshold. -/
theorem rpow_gamma_lower (x : ℝ) (hx : 0.09545 / 1.055 < x) :
    0.0031308 < x ^ kSrgbGamma ℝ := by
  have hx0 : (0 : ℝ) ≤ x := by
    have : (0 : ℝ) ≤ 0.09545 / 1.055 := by norm_num
    linarith
  have hy0 : 0 ≤ x ^ kSrgbGamma ℝ := Real.rpow_nonneg hx0 _
  by_contra hlt
  have hle : x ^ kSrgbGamma ℝ ≤ 0.0031308 := not_lt.mp hlt
  have h5 : (x ^ kSrgbGamma ℝ) ^ (5 : ℕ) ≤ (0.0031308 : ℝ) ^ (5 : ℕ) :=
    pow_le_pow_left₀ hy0 hle 5
  rw [rpow_gamma_pow x hx0] at h5
  have h12 : (0.09545 / 1.055 : ℝ) ^ (12 : ℕ) < x ^ (12 : ℕ) :=
    pow_lt_pow_left₀ hx (by norm_num) (by norm_num)
  have hnum : (0.0031308 : ℝ) ^ (5 : ℕ) ≤ (0.09545 / 1.055 : ℝ) ^ (12 : ℕ) := by norm_num
  linarith

/-- When the encoding power stays at or below the encoded threshold, the input
is at most `0.0031309`. -/
theorem le_of_rpow_inv_gamma_le (x : ℝ) (hx0 : 0 ≤ x)
    (h : x ^ (1.0 / kSrgbGamma ℝ) ≤ 0.09545 / 1.055) : x ≤ 0.0031309 := by
  have hy0 : 0 ≤ x ^ (1.0 / kSrgbGamma ℝ) := Real.rpow_nonneg hx0 _
  by_contra hlt
  have hgt : (0.0031309 : ℝ) < x := not_le.mp hlt
  have h12 : (x ^ (1.0 / kSrgbGamma ℝ)) ^ (12 : ℕ) ≤ (0.09545 / 1.055 : ℝ) ^ (12 : ℕ) :=
    pow_le_pow_left₀ hy0 h 12
  rw [rpow_inv_gamma_pow x hx0] at h12
  have h5 : (0.0031309 : ℝ) ^ (5 : ℕ) < x ^ (5 : ℕ) :=
    pow_lt_pow_left₀ hgt (by norm_num) (by norm_num)
  have hnum : (0.09545 / 1.055 : ℝ) ^ (12 : ℕ) ≤ (0.0031309 : ℝ) ^ (5 : ℕ) := by norm_num
  linarith

/-- C9 (round trip, encode after decode): over the reals, for every `v` in
`[0, 1]`, `srgbOETF (srgbEOTF v)` is within `1e-6` of `v`; this covers the
sliver where decode is linear and encode takes its power branch. -/
theorem srgbOETF_srgbEOTF_near :
    ∀ v : ℝ, 0 ≤ v → v ≤ 1 → |srgbOETF (srgbEOTF v) - v| ≤ 1e-6 := by
  intro v _ _
  unfold srgbEOTF
  by_cases hv : v ≤ kSrgbLinearThreshold ℝ
  · rw [if_pos hv]
    unfold srgbOETF
    by_cases hd : v / kSrgbLinearSlope ℝ ≤ kSrgbLinearToEncodedThreshold ℝ
    · rw [if_pos hd]
      have : v / kSrgbLinearSlope ℝ * kSrgbLinearSlope ℝ - v = 0 := by
        norm_num [kSrgbLinearSlope]
      rw [this]
      norm_num
    · rw [if_neg hd]
      have hd' : (0.0031308 : ℝ) < v / kSrgbLinearSlope ℝ := by
        simpa [kSrgbLinearToEncodedThreshold] using hd
      have hlo := rpow_inv_gamma_lower _ hd'
      have hup := rpow_inv_gamma_upper (v / kSrgbLinearSlope ℝ) (by linarith)
        (by
          simp only [kSrgbLinearThreshold, kSrgbLinearSlope] at hv ⊢
          exact div_le_div_of_nonneg_right hv (by norm_num))
      have hv2 : (0.040449936 : ℝ) < v := by
        simp only [kSrgbLinearSlope] at hd'
        rw [lt_div_iff₀ (by norm_num)] at hd'
        norm_num at hd' ⊢
        linarith
      simp only [kSrgbLinearThreshold] at hv
      simp only [kSrgbEncodedDivisor, kSrgbEncodedOffset]
      rw [abs_le]
      constructor <;> norm_num at hlo hup hv hv2 ⊢ <;> linarith
  · rw [if_neg hv]
    have hv' : (0.04045 : ℝ) < v := by simpa [kSrgbLinearThreshold] using hv
    have hbase : (0.09545 / 1.055 : ℝ) <
        (v + kSrgbEncodedOffset ℝ) / kSrgbEncodedDivisor ℝ := by
      simp only [kSrgbEncodedOffset, kSrgbEncodedDivisor]
      apply div_lt_div_of_pos_right _ (by norm_num)
      norm_num at hv' ⊢
      linarith
    have hbase0 : (0 : ℝ) ≤ (v + kSrgbEncodedOffset ℝ) / kSrgbEncodedDivisor ℝ := by
      have : (0 : ℝ) ≤ 0.09545 / 1.055 := by norm_num
      linarith
    have hd := rpow_gamma_lower _ hbase
    unfold srgbOETF
    rw [if_neg (by simpa [kSrgbLinearToEncodedThreshold] using hd), rpow_gamma_inv _ hbase0]
    have : kSrgbEncodedDivisor ℝ * ((v + kSrgbEncodedOffset ℝ) / kSrgbEncodedDivisor ℝ) -
        kSrgbEncodedOffset ℝ - v = 0 := by
      norm_num [kSrgbEncodedDivisor, kSrgbEncodedOffset]
      ring
    rw [this]
    norm_num

/-- C10 (round trip, decode after encode): over the reals, for every `v` in
`[0, 1]`, `srgbEOTF (srgbOETF v)` is within `1e-6` of `v`; this covers the
inputs just above `0.0031308` whose power-branch encoding is still decoded by
the linear branch. -/
theorem srgbEOTF_srgbOETF_near :
    ∀ v : ℝ, 0 ≤ v → v ≤ 1 → |srgbEOTF (srgbOETF v) - v| ≤ 1e-6 := by
  intro v h0 _
  unfold srgbOETF
  by_cases hv : v ≤ kSrgbLinearToEncodedThreshold ℝ
  · rw [if_pos hv]
    have hle : v * kSrgbLinearSlope ℝ ≤ kSrgbLinearThreshold ℝ := by
      simp only [kSrgbLinearToEncodedThreshold, kSrgbLinearSlope,
        kSrgbLinearThreshold] at hv ⊢
      norm_num at hv ⊢
      linarith
    unfold srgbEOTF
    rw [if_pos hle]
    have : v * kSrgbLinearSlope ℝ / kSrgbLinearSlope ℝ - v = 0 := by
      norm_num [kSrgbLinearSlope]
    rw [this]
    norm_num
  · rw [if_neg hv]
    have hv' : (0.0031308 : ℝ) < v := by
      simpa [kSrgbLinearToEncodedThreshold] using hv
    have hlo := rpow_inv_gamma_lower v hv'
    unfold srgbEOTF
    by_cases he : kSrgbEncodedDivisor ℝ * v ^ (1.0 / kSrgbGamma ℝ) -
        kSrgbEncodedOffset ℝ ≤ kSrgbLinearThreshold ℝ
    · rw [if_pos he]
      simp only [kSrgbEncodedDivisor, kSrgbEncodedOffset, kSrgbLinearThreshold] at he
      have hy : v ^ (1.0 / kSrgbGamma ℝ) ≤ 0.09545 / 1.055 := by
        rw [le_div_iff₀ (by norm_num)]
        norm_num at he ⊢
        linarith
      have hup := le_of_rpow_inv_gamma_le v h0 hy
      simp only [kSrgbEncodedDivisor, kSrgbEncodedOffset, kSrgbLinearSlope]
      rw [abs_le]
      constructor
      · rw [le_sub_iff_add_le, le_div_iff₀ (by norm_num)]
        norm_num at hlo hup ⊢
        linarith
      · rw [sub_le_iff_le_add, div_le_iff₀ (by norm_num)]
        norm_num at he hv' ⊢
        linarith
    · rw [if_neg he]
      have : (kSrgbEncodedDivisor ℝ * v ^ (1.0 / kSrgbGamma ℝ) - kSrgbEncodedOffset ℝ +
          kSrgbEncodedOffset ℝ) / kSrgbEncodedDivisor ℝ = v ^ (1.0 / kSrgbGamma ℝ) := by
        norm_num [kSrgbEncodedDivisor, kSrgbEncodedOffset]
      rw [this, rpow_inv_gamma v h0]
      norm_num

/-- Witness for C9 at the top of the sliver, `v = 0.04045`. -/
theorem srgbOETF_srgbEOTF_near_witness :
    (0 : ℝ) ≤ 0.04045 ∧ (0.04045 : ℝ) ≤ 1 ∧
      |srgbOETF (srgbEOTF (0.04045 : ℝ)) - 0.04045| ≤ 1e-6 :=
  ⟨by norm_num, by norm_num,
    srgbOETF_srgbEOTF_near 0.04045 (by norm_num) (by norm_num)⟩

/-- Witness for C10 just above the linear-domain threshold,
`v = 0.0031308001`. -/
theorem srgbEOTF_srgbOETF_near_witness :
    (0 : ℝ) ≤ 0.0031308001 ∧ (0.0031308001 : ℝ) ≤ 1 ∧
      |srgbEOTF (srgbOETF (0.0031308001 : ℝ)) - 0.0031308001| ≤ 1e-6 :=
  ⟨by norm_num, by norm_num,
    srgbEOTF_srgbOETF_near 0.0031308001 (by norm_num) (by norm_num)⟩

end RealPower

/-! ## Witnesses on concrete colours -/

/-- Witness for C1 on the recursive path: the `kDisplayP3` colour with alpha `2`
and black channels converts to `kSRGB` with alpha `2`. -/
theorem withColorSpace_alpha_witness :
    (DlColor.mk (2 : ℝ) 0 0 0 DlColorSpace.kDisplayP3).withColorSpace
        DlColorSpace.kSRGB = Except.ok ⟨2, 0, 0, 0, DlColorSpace.kSRGB⟩ ∧
      (DlColor.mk (2 : ℝ) 0 0 0 DlColorSpace.kSRGB).alpha_ =
        (DlColor.mk (2 : ℝ) 0 0 0 DlColorSpace.kDisplayP3).alpha_ :=
  ⟨by
      norm_num [DlColor.withColorSpace, p3ToExtendedSrgb, srgbEOTFExtended,
        srgbOETFExtended, srgbEOTF, srgbOETF, kSrgbLinearThreshold,
        kSrgbLinearToEncodedThreshold, DlColor.getRedF, DlColor.getGreenF,
        DlColor.getBlueF, DlColor.getAlphaF, clamp, static_cast_double,
        static_cast_float_zero],
    withColorSpace_alpha _ _ DlColorSpace.kSRGB (by
      norm_num [DlColor.withColorSpace, p3ToExtendedSrgb, srgbEOTFExtended,
        srgbOETFExtended, srgbEOTF, srgbOETF, kSrgbLinearThreshold,
        kSrgbLinearToEncodedThreshold, DlColor.getRedF, DlColor.getGreenF,
        DlColor.getBlueF, DlColor.getAlphaF, clamp, static_cast_double,
        static_cast_float_zero])⟩

/-- Witness for C7 at alpha `2` and channels `(0, 0.5, 1)`. -/
theorem withColorSpace_srgb_roundtrip_witness :
    ((0 : ℝ) ≤ 0 ∧ (0 : ℝ) ≤ 1) ∧ ((0 : ℝ) ≤ 0.5 ∧ (0.5 : ℝ) ≤ 1) ∧
      ((0 : ℝ) ≤ 1 ∧ (1 : ℝ) ≤ 1) ∧
      ((DlColor.mk (2 : ℝ) 0 0.5 1 DlColorSpace.kSRGB).withColorSpace
          DlColorSpace.kExtendedSRGB >>= fun e => e.withColorSpace DlColorSpace.kSRGB) =
        Except.ok ⟨2, 0, 0.5, 1, DlColorSpace.kSRGB⟩ :=
  ⟨by norm_num, by norm_num, by norm_num,
    withColorSpace_srgb_roundtrip 2 0 0.5 1 (by norm_num) (by norm_num) (by norm_num)⟩

section Instrumented

variable {α : Type} [LinearOrderedField α] [Pow α α]

theorem srgbEOTFTrace_fst (v : α) : (srgbEOTFTrace v).1 = srgbEOTF v := by
  unfold srgbEOTFTrace srgbEOTF
  split <;> rfl

theorem srgbOETFTrace_fst (v : α) : (srgbOETFTrace v).1 = srgbOETF v := by
  unfold srgbOETFTrace srgbOETF
  split <;> rfl

theorem srgbEOTFExtendedTrace_fst (v : α) :
    (srgbEOTFExtendedTrace v).1 = srgbEOTFExtended v := by
  unfold srgbEOTFExtendedTrace srgbEOTFExtended
  split <;> simp [srgbEOTFTrace_fst]

theorem srgbOETFExtendedTrace_fst (v : α) :
    (srgbOETFExtendedTrace v).1 = srgbOETFExtended v := by
  unfold srgbOETFExtendedTrace srgbOETFExtended
  split <;> simp [srgbOETFTrace_fst]

/-- On a non-negative argument every evaluation of `srgbEOTF` is safe. -/
theorem srgbEOTFTrace_safe (v : α) (hv : 0 ≤ v) :
    ∀ e ∈ (srgbEOTFTrace v).2, e.safe := by
  have hbase : 0 < (v + kSrgbEncodedOffset α) / kSrgbEncodedDivisor α := by
    apply div_pos
    · have : (0 : α) < kSrgbEncodedOffset α := by norm_num [kSrgbEncodedOffset]
      linarith
    · norm_num [kSrgbEncodedDivisor]
  unfold srgbEOTFTrace
  split <;> simp [Call.safe, hv, hbase]

/-- On a non-negative argument every evaluation of `srgbOETF` is safe. -/
theorem srgbOETFTrace_safe (v : α) (hv : 0 ≤ v) :
    ∀ e ∈ (srgbOETFTrace v).2, e.safe := by
  unfold srgbOETFTrace
  split
  · simp [Call.safe, hv]
  · rename_i h
    have hpos : 0 < v := by
      have : (0 : α) < kSrgbLinearToEncodedThreshold α := by
        norm_num [kSrgbLinearToEncodedThreshold]
      exact lt_trans this (not_le.mp h)
    simp [Call.safe, hv, hpos]

theorem srgbEOTFExtendedTrace_safe (v : α) :
    ∀ e ∈ (srgbEOTFExtendedTrace v).2, e.safe := by
  unfold srgbEOTFExtendedTrace
  rw [zero_literal]
  split
  · rename_i h
    exact srgbEOTFTrace_safe (-v) (by linarith)
  · rename_i h
    exact srgbEOTFTrace_safe v (not_lt.mp h)

theorem srgbOETFExtendedTrace_safe (v : α) :
    ∀ e ∈ (srgbOETFExtendedTrace v).2, e.safe := by
  unfold srgbOETFExtendedTrace
  rw [zero_literal]
  split
  · rename_i h
    exact srgbOETFTrace_safe (-v) (by linarith)
  · rename_i h
    exact srgbOETFTrace_safe v (not_lt.mp h)

theorem srgbEOTFTrace_ne_nil (v : α) : (srgbEOTFTrace v).2 ≠ [] := by
  unfold srgbEOTFTrace
  split <;> simp

theorem srgbOETFTrace_ne_nil (v : α) : (srgbOETFTrace v).2 ≠ [] := by
  unfold srgbOETFTrace
  split <;> simp

section Bounded

variable [FloorRing α]

/-- C12 (no fractional power of a negative base): for every input, the
instrumented `srgbEOTFExtended`, `srgbOETFExtended` and `p3ToExtendedSrgb`
compute the values of the plain functions, and every evaluation they perform is
safe: each call of the core `srgbEOTF` or `srgbOETF` has a non-negative
argument and each `std::pow` has a strictly positive base. -/
theorem extended_calls_safe (v : α) (color : DlColor α) :
    ((srgbEOTFExtendedTrace v).1 = srgbEOTFExtended v ∧
        (srgbEOTFExtendedTrace v).2 ≠ [] ∧
        ∀ e ∈ (srgbEOTFExtendedTrace v).2, e.safe) ∧
      ((srgbOETFExtendedTrace v).1 = srgbOETFExtended v ∧
        (srgbOETFExtendedTrace v).2 ≠ [] ∧
        ∀ e ∈ (srgbOETFExtendedTrace v).2, e.safe) ∧
      ((p3ToExtendedSrgbTrace color).1 = p3ToExtendedSrgb color ∧
        ∀ e ∈ (p3ToExtendedSrgbTrace color).2, e.safe) := by
  refine ⟨⟨srgbEOTFExtendedTrace_fst v, ?_, srgbEOTFExtendedTrace_safe v⟩,
    ⟨srgbOETFExtendedTrace_fst v, ?_, srgbOETFExtendedTrace_safe v⟩, ?_, ?_⟩
  · unfold srgbEOTFExtendedTrace
    split
    · exact srgbEOTFTrace_ne_nil _
    · exact srgbEOTFTrace_ne_nil _
  · unfold srgbOETFExtendedTrace
    split
    · exact srgbOETFTrace_ne_nil _
    · exact srgbOETFTrace_ne_nil _
  · simp only [p3ToExtendedSrgbTrace, p3ToExtendedSrgb, srgbEOTFExtendedTrace_fst,
      srgbOETFExtendedTrace_fst]
  · intro e he
    simp only [p3ToExtendedSrgbTrace, List.mem_append] at he
    rcases he with ((((he | he) | he) | he) | he) | he
    · exact srgbEOTFExtendedTrace_safe _ e he
    · exact srgbEOTFExtendedTrace_safe _ e he
    · exact srgbEOTFExtendedTrace_safe _ e he
    · exact srgbOETFExtendedTrace_safe _ e he
    · exact srgbOETFExtendedTrace_safe _ e he
    · exact srgbOETFExtendedTrace_safe _ e he

/-- C13 (termination and recursion depth): `withColorSpace` is a total function,
and two activations always suffice: with the outermost call and one nested call
allowed the bounded method returns the result of `withColorSpace` for every
colour and destination. One activation alone fails exactly on `kDisplayP3` to
`kSRGB`, whose nested call is made on a colour tagged `kExtendedSRGB` with
destination `kSRGB` and returns without a further call. -/
theorem withColorSpace_depth (c : DlColor α) (dst : DlColorSpace) :
    c.withColorSpaceFuel 2 dst = some (c.withColorSpace dst) ∧
      (c.withColorSpaceFuel 1 dst = none ↔
        c.color_space_ = DlColorSpace.kDisplayP3 ∧ dst = DlColorSpace.kSRGB) ∧
      (p3ToExtendedSrgb c).color_space_ = DlColorSpace.kExtendedSRGB ∧
      (p3ToExtendedSrgb c).withColorSpaceFuel 1 DlColorSpace.kSRGB =
        some ((p3ToExtendedSrgb c).withColorSpace DlColorSpace.kSRGB) := by
  obtain ⟨a, r, g, b, s⟩ := c
  refine ⟨?_, ?_, rfl, ?_⟩
  · cases s <;> cases dst <;>
      simp [DlColor.withColorSpaceFuel, DlColor.withColorSpace, p3ToExtendedSrgb_color_space]
  · cases s <;> cases dst <;> simp [DlColor.withColorSpaceFuel]
  · simp [DlColor.withColorSpaceFuel, DlColor.withColorSpace, p3ToExtendedSrgb_color_space]

end Bounded

end Instrumented

section WideRed

end WideRed

section Monotone

/-! ## Facts over the reals about the two core transfer functions -/

/-- Above the linear-domain threshold `srgbOETFExtended` is the power branch. -/
theorem srgbOETFExtended_of_gt (x : ℝ) (hx : 0.0031308 < x) :
    srgbOETFExtended x = 1.055 * x ^ (1.0 / kSrgbGamma ℝ) - 0.055 := by
  have h1 : ¬ (x < 0.0) := by
    rw [zero_literal]
    exact not_lt.mpr (by linarith)
  have h2 : ¬ (x ≤ kSrgbLinearToEncodedThreshold ℝ) := by
    simpa [kSrgbLinearToEncodedThreshold] using hx
  unfold srgbOETFExtended srgbOETF
  rw [if_neg h1, if_neg h2]
  simp only [kSrgbEncodedDivisor, kSrgbEncodedOffset]

/-- A sharper lower bound on the encoding power above the threshold. -/
theorem rpow_inv_gamma_lower_sharp (x : ℝ) (hx : 0.0031308 < x) :
    0.090473845 < x ^ (1.0 / kSrgbGamma ℝ) := by
  have hx0 : (0 : ℝ) ≤ x := by linarith
  have hy0 : 0 ≤ x ^ (1.0 / kSrgbGamma ℝ) := Real.rpow_nonneg hx0 _
  by_contra hlt
  have hle : x ^ (1.0 / kSrgbGamma ℝ) ≤ 0.090473845 := not_lt.mp hlt
  have h12 : (x ^ (1.0 / kSrgbGamma ℝ)) ^ (12 : ℕ) ≤ (0.090473845 : ℝ) ^ (12 : ℕ) :=
    pow_le_pow_left₀ hy0 hle 12
  rw [rpow_inv_gamma_pow x hx0] at h12
  have h5 : (0.0031308 : ℝ) ^ (5 : ℕ) < x ^ (5 : ℕ) :=
    pow_lt_pow_left₀ hx (by norm_num) (by norm_num)
  have hnum : (0.090473845 : ℝ) ^ (12 : ℕ) ≤ (0.0031308 : ℝ) ^ (5 : ℕ) := by norm_num
  linarith

/-- Above the encoded threshold the decoding power exceeds the largest value of
the linear branch, `0.04045 / 12.92`. -/
theorem rpow_gamma_lower_sharp (x : ℝ) (hx : 0.09545 / 1.055 < x) :
    0.04045 / 12.92 < x ^ kSrgbGamma ℝ := by
  have hx0 : (0 : ℝ) ≤ x := by
    have : (0 : ℝ) ≤ 0.09545 / 1.055 := by norm_num
    linarith
  have hy0 : 0 ≤ x ^ kSrgbGamma ℝ := Real.rpow_nonneg hx0 _
  by_contra hlt
  have hle : x ^ kSrgbGamma ℝ ≤ 0.04045 / 12.92 := not_lt.mp hlt
  have h5 : (x ^ kSrgbGamma ℝ) ^ (5 : ℕ) ≤ (0.04045 / 12.92 : ℝ) ^ (5 : ℕ) :=
    pow_le_pow_left₀ hy0 hle 5
  rw [rpow_gamma_pow x hx0] at h5
  have h12 : (0.09545 / 1.055 : ℝ) ^ (12 : ℕ) < x ^ (12 : ℕ) :=
    pow_lt_pow_left₀ hx (by norm_num) (by norm_num)
  have hnum : (0.04045 / 12.92 : ℝ) ^ (5 : ℕ) ≤ (0.09545 / 1.055 : ℝ) ^ (12 : ℕ) := by
    norm_num
  linarith

/-- The core `srgbOETF` is non-negative on non-negative arguments. -/
theorem srgbOETF_nonneg (a : ℝ) (ha : 0 ≤ a) : 0 ≤ srgbOETF a := by
  unfold srgbOETF
  split
  · exact mul_nonneg ha (by norm_num [kSrgbLinearSlope])
  · rename_i h
    have hgt : (0.0031308 : ℝ) < a := by simpa [kSrgbLinearToEncodedThreshold] using h
    have hlo := rpow_inv_gamma_lower a hgt
    simp only [kSrgbEncodedDivisor, kSrgbEncodedOffset]
    norm_num at hlo ⊢
    linarith

/-- The core `srgbOETF` is non-decreasing between two arguments of the same
branch. -/
theorem srgbOETF_mono_branch (a b : ℝ) (ha : 0 ≤ a) (hab : a ≤ b)
    (hbr : b ≤ 0.0031308 ∨ 0.0031308 < a) : srgbOETF a ≤ srgbOETF b := by
  unfold srgbOETF
  simp only [kSrgbLinearToEncodedThreshold]
  rcases hbr with hb | hgt
  · rw [if_pos (le_trans hab hb), if_pos hb]
    exact mul_le_mul_of_nonneg_right hab (by norm_num [kSrgbLinearSlope])
  · rw [if_neg (not_le.mpr hgt), if_neg (not_le.mpr (lt_of_lt_of_le hgt hab))]
    have hp : a ^ (1.0 / kSrgbGamma ℝ) ≤ b ^ (1.0 / kSrgbGamma ℝ) :=
      Real.rpow_le_rpow ha hab (by norm_num [kSrgbGamma])
    simp only [kSrgbEncodedDivisor, kSrgbEncodedOffset]
    norm_num at hp ⊢
    linarith

/-- The core `srgbOETF` is non-decreasing on non-negative arguments up to
`3e-8`, the size of its drop at the threshold. -/
theorem srgbOETF_mono_approx (a b : ℝ) (ha : 0 ≤ a) (hab : a ≤ b) :
    srgbOETF a ≤ srgbOETF b + 3e-8 := by
  by_cases hb : b ≤ 0.0031308
  · have := srgbOETF_mono_branch a b ha hab (Or.inl hb)
    norm_num at this ⊢
    linarith
  · by_cases hgt : 0.0031308 < a
    · have := srgbOETF_mono_branch a b ha hab (Or.inr hgt)
      norm_num at this ⊢
      linarith
    · have hb' : (0.0031308 : ℝ) < b := not_le.mp hb
      have ha' : a ≤ 0.0031308 := not_lt.mp hgt
      have hlo := rpow_inv_gamma_lower_sharp b hb'
      unfold srgbOETF
      simp only [kSrgbLinearToEncodedThreshold]
      rw [if_pos ha', if_neg hb]
      simp only [kSrgbEncodedDivisor, kSrgbEncodedOffset, kSrgbLinearSlope]
      norm_num at hlo ha' ⊢
      linarith

/-- The core `srgbEOTF` is non-decreasing on non-negative arguments. -/
theorem srgbEOTF_mono (a b : ℝ) (ha : 0 ≤ a) (hab : a ≤ b) :
    srgbEOTF a ≤ srgbEOTF b := by
  unfold srgbEOTF
  simp only [kSrgbLinearThreshold]
  by_cases hb : b ≤ 0.04045
  · rw [if_pos (le_trans hab hb), if_pos hb]
    exact div_le_div_of_nonneg_right hab (by norm_num [kSrgbLinearSlope])
  · have hb' : (0.04045 : ℝ) < b := not_le.mp hb
    have hbase : (0.09545 / 1.055 : ℝ) <
        (b + kSrgbEncodedOffset ℝ) / kSrgbEncodedDivisor ℝ := by
      simp only [kSrgbEncodedOffset, kSrgbEncodedDivisor]
      apply div_lt_div_of_pos_right _ (by norm_num)
      norm_num at hb' ⊢
      linarith
    rw [if_neg hb]
    by_cases hgt : a ≤ 0.04045
    · rw [if_pos hgt]
      have hup := rpow_gamma_lower_sharp _ hbase
      have hle : a / kSrgbLinearSlope ℝ ≤ 0.04045 / 12.92 := by
        simp only [kSrgbLinearSlope]
        exact div_le_div_of_nonneg_right hgt (by norm_num)
      linarith
    · rw [if_neg hgt]
      apply Real.rpow_le_rpow _ _ (by norm_num [kSrgbGamma])
      · apply div_nonneg _ (by norm_num [kSrgbEncodedDivisor])
        have : (0 : ℝ) ≤ kSrgbEncodedOffset ℝ := by norm_num [kSrgbEncodedOffset]
        linarith
      · exact div_le_div_of_nonneg_right (by linarith) (by norm_num [kSrgbEncodedDivisor])

/-- The core `srgbEOTF` is non-negative on non-negative arguments. -/
theorem srgbEOTF_nonneg (a : ℝ) (ha : 0 ≤ a) : 0 ≤ srgbEOTF a := by
  have h := srgbEOTF_mono 0 a le_rfl ha
  have h0 : srgbEOTF (0 : ℝ) = 0 := by
    norm_num [srgbEOTF, kSrgbLinearThreshold]
  linarith

/-- C15, as stated, fails: `0.0031308 ≤ 0.0031308001`, yet over the reals
`srgbOETFExtended` is strictly smaller at `0.0031308001` (power branch) than at
`0.0031308` (linear branch, value `0.0031308 * 12.92`). -/
theorem srgbOETFExtended_not_mono :
    (0.0031308 : ℝ) ≤ 0.0031308001 ∧
      srgbOETFExtended (0.0031308001 : ℝ) < srgbOETFExtended (0.0031308 : ℝ) := by
  refine ⟨by norm_num, ?_⟩
  have hlin : srgbOETFExtended (0.0031308 : ℝ) = 0.0031308 * 12.92 := by
    norm_num [srgbOETFExtended, srgbOETF, kSrgbLinearToEncodedThreshold, kSrgbLinearSlope]
  have hup : (0.0031308001 : ℝ) ^ (1.0 / kSrgbGamma ℝ) < 0.09047385 := by
    have hy0 : (0 : ℝ) ≤ (0.0031308001 : ℝ) ^ (1.0 / kSrgbGamma ℝ) :=
      Real.rpow_nonneg (by norm_num) _
    by_contra hlt
    have h12 : (0.09047385 : ℝ) ^ (12 : ℕ) ≤
        ((0.0031308001 : ℝ) ^ (1.0 / kSrgbGamma ℝ)) ^ (12 : ℕ) :=
      pow_le_pow_left₀ (by norm_num) (not_lt.mp hlt) 12
    rw [rpow_inv_gamma_pow _ (by norm_num)] at h12
    have hnum : (0.0031308001 : ℝ) ^ (5 : ℕ) < (0.09047385 : ℝ) ^ (12 : ℕ) := by norm_num
    linarith
  rw [hlin, srgbOETFExtended_of_gt _ (by norm_num)]
  norm_num at hup ⊢
  linarith

/-- C15, amended: over the reals, for `v ≤ w`, `srgbOETFExtended v` exceeds
`srgbOETFExtended w` by at most `3e-8`, and `srgbOETFExtended v ≤
srgbOETFExtended w` holds without tolerance whenever both arguments lie on one
branch: both below `-0.0031308`, both in `[-0.0031308, 0.0031308]`, or both
above `0.0031308`. -/
theorem srgbOETFExtended_mono_approx :
    ∀ v w : ℝ, v ≤ w →
      srgbOETFExtended v ≤ srgbOETFExtended w + 3e-8 ∧
        ((w < -0.0031308 ∨ (-0.0031308 ≤ v ∧ w ≤ 0.0031308) ∨ 0.0031308 < v) →
          srgbOETFExtended v ≤ srgbOETFExtended w) := by
  intro v w hvw
  unfold srgbOETFExtended
  rw [zero_literal]
  by_cases hv : v < 0
  · by_cases hw : w < 0
    · rw [if_pos hv, if_pos hw]
      constructor
      · have := srgbOETF_mono_approx (-w) (-v) (by linarith) (by linarith)
        linarith
      · intro hbr
        apply neg_le_neg
        apply srgbOETF_mono_branch (-w) (-v) (by linarith) (by linarith)
        rcases hbr with h | h | h
        · exact Or.inr (by linarith)
        · exact Or.inl (by linarith [h.1])
        · exact absurd h (not_lt.mpr (by linarith))
    · rw [if_pos hv, if_neg hw]
      have h1 := srgbOETF_nonneg (-v) (by linarith)
      have h2 := srgbOETF_nonneg w (not_lt.mp hw)
      constructor
      · norm_num
        linarith
      · intro _
        linarith
  · have hv0 : 0 ≤ v := not_lt.mp hv
    have hw : ¬ (w < 0) := not_lt.mpr (le_trans hv0 hvw)
    rw [if_neg hv, if_neg hw]
    constructor
    · exact srgbOETF_mono_approx v w hv0 hvw
    · intro hbr
      apply srgbOETF_mono_branch v w hv0 hvw
      rcases hbr with h | h | h
      · exact absurd h (not_lt.mpr (by linarith))
      · exact Or.inl h.2
      · exact Or.inr h

/-- Witness for the amended C15 across the branch switch, at `v = 0.0031308`
and `w = 0.0031308001`. -/
theorem srgbOETFExtended_mono_approx_witness :
    (0.0031308 : ℝ) ≤ 0.0031308001 ∧
      (srgbOETFExtended (0.0031308 : ℝ) ≤ srgbOETFExtended (0.0031308001 : ℝ) + 3e-8 ∧
        (((0.0031308001 : ℝ) < -0.0031308 ∨
            (-0.0031308 ≤ (0.0031308 : ℝ) ∧ (0.0031308001 : ℝ) ≤ 0.0031308) ∨
            (0.0031308 : ℝ) < 0.0031308) →
          srgbOETFExtended (0.0031308 : ℝ) ≤ srgbOETFExtended (0.0031308001 : ℝ))) :=
  ⟨by norm_num, srgbOETFExtended_mono_approx 0.0031308 0.0031308001 (by norm_num)⟩

/-- C16 (decode is monotone): over the reals `srgbEOTFExtended` is
non-decreasing, across the branch switches at `0.04045` and `-0.04045` too. -/
theorem srgbEOTFExtended_mono :
    ∀ v w : ℝ, v ≤ w → srgbEOTFExtended v ≤ srgbEOTFExtended w := by
  intro v w hvw
  unfold srgbEOTFExtended
  rw [zero_literal]
  by_cases hv : v < 0
  · by_cases hw : w < 0
    · rw [if_pos hv, if_pos hw]
      exact neg_le_neg (srgbEOTF_mono (-w) (-v) (by linarith) (by linarith))
    · rw [if_pos hv, if_neg hw]
      have h1 := srgbEOTF_nonneg (-v) (by linarith)
      have h2 := srgbEOTF_nonneg w (not_lt.mp hw)
      linarith
  · have hv0 : 0 ≤ v := not_lt.mp hv
    have hw : ¬ (w < 0) := not_lt.mpr (le_trans hv0 hvw)
    rw [if_neg hv, if_neg hw]
    exact srgbEOTF_mono v w hv0 hvw

/-- Witness for C16 across the branch switch, at `v = 0.04045` and
`w = 0.0405`. -/
theorem srgbEOTFExtended_mono_witness :
    (0.04045 : ℝ) ≤ 0.0405 ∧
      srgbEOTFExtended (0.04045 : ℝ) ≤ srgbEOTFExtended (0.0405 : ℝ) :=
  ⟨by norm_num, srgbEOTFExtended_mono 0.04045 0.0405 (by norm_num)⟩

end Monotone

namespace testing

/-! ## The extension lookup on concrete extension strings -/

/-- C17 fails on the code in both directions. A name that is only the end of a
longer entry is accepted; a name that is a complete entry is rejected when a
longer entry starting with it comes first; and `CreateSwangleDisplay` returns
the display of the platform function for an extension string in which none of
the three required names is an entry. -/
theorem HasExtension_not_entry_lookup :
    (HasExtension "XEGL_EXT_platform_base".toList "EGL_EXT_platform_base".toList = true ∧
        "EGL_EXT_platform_base".toList ∉
          extensionEntries "XEGL_EXT_platform_base".toList) ∧
      (HasExtension "EGL_EXT_platform_base_v2 EGL_EXT_platform_base".toList
          "EGL_EXT_platform_base".toList = false ∧
        "EGL_EXT_platform_base".toList ∈
          extensionEntries "EGL_EXT_platform_base_v2 EGL_EXT_platform_base".toList) ∧
      (("EGL_EXT_platform_base".toList ∉ extensionEntries
            "XEGL_EXT_platform_base XEGL_ANGLE_platform_angle_vulkan XEGL_ANGLE_platform_angle_device_type_swiftshader".toList) ∧
        CreateSwangleDisplay
            (some "XEGL_EXT_platform_base XEGL_ANGLE_platform_angle_vulkan XEGL_ANGLE_platform_angle_device_type_swiftshader".toList)
            (some (EGLDisplay.display 1)) =
          EGLDisplay.display 1) := by
  decide

end testing

end flutter
